import Mathlib

/-!
Verification development for the pubmed-rna-digest ingestion pipeline
(`scripts/fetch_papers.py`).  The Python functions relevant to the frozen
claims are shallowly embedded as executable Lean definitions:

* `select_unseen`   — lines 177-188 of `fetch_papers.py`
* `filter_recent`   — lines 137-153
* `load_seen_ids` / `load_scores` — lines 156-167 / 191-202
* `save_seen_ids` / `save_scores` — lines 170-174 / 205-209 (as file-system traces)
* `score_with_deepseek` — lines 252-295 (the response-parsing part; the
  network call is abstracted into the textual response argument)
* the scoring loop and the ranking/selection stage of `main` — lines 330-357

Python machine-level details are modelled as follows: Python `int` is `Int`;
a Python `dict` keyed by strings is an association list (insertion conses a
fresh key, which is equivalent because the code only inserts keys that are
absent); a Python `set` of strings is a `Finset String`; a record possibly
missing the `"id"`/`"published"` key carries `Option String` fields;
`datetime` values are whole seconds since the epoch (`Int`), computed from a
calendar date by the standard days-from-civil formula, which is
order-isomorphic to Python's `datetime` ordering at the granularity the
claims use.
-/

namespace PubmedDigest

/-- A document record as produced by `efetch_pubmed`.  Only the fields the
claims' code paths inspect are carried (`"id"` and `"published"`); `title`,
`abstract`, `authors`, `journal` and `url` never influence filtering,
scoring-cache membership, ranking or selection. A missing dictionary key is
`none`; `d.get("id")` returning `""` is `some ""`. -/
structure Paper where
  id : Option String
  published : Option String
deriving DecidableEq

/-- The score cache in memory: a Python dict `str -> int` as an association
list; the first binding for a key is its value (the code only ever inserts
keys that are currently absent, so cons-front insertion is faithful). -/
def lookupScore : List (String × Int) → String → Option Int
  | [], _ => none
  | (k, v) :: rest, pid => if k = pid then some v else lookupScore rest pid

/-- The `paper_score` key of `main` (lines 349-353): the cached score when the
paper's id is a cache key, else `0.0`.  A record with no id is never a dict
key, hence scores `0`. -/
def paper_score (scores : List (String × Int)) (p : Paper) : Int :=
  match p.id with
  | none => 0
  | some pid =>
    match lookupScore scores pid with
    | some v => v
    | none => 0

section SortDesc

variable {α : Type} {κ : Type} [LinearOrder κ]

/-- Insert `a` into an (already descending-sorted) list, keeping it before
every later element whose key is `≤ key a`.  Together with `sortDesc` this
is the stable descending sort `sorted(xs, key=key, reverse=True)`:
equal-key elements keep their input relative order. -/
def insDesc (key : α → κ) (a : α) : List α → List α
  | [] => [a]
  | y :: ys => if key a < key y then y :: insDesc key a ys else a :: y :: ys

/-- Stable descending sort by a key, the semantics of Python's
`sorted(xs, key=key, reverse=True)`. -/
def sortDesc (key : α → κ) : List α → List α
  | [] => []
  | x :: l => insDesc key x (sortDesc key l)

theorem mem_insDesc (key : α → κ) (a b : α) (l : List α) :
    b ∈ insDesc key a l ↔ b = a ∨ b ∈ l := by
  induction l with
  | nil => simp [insDesc]
  | cons y ys ih =>
    simp only [insDesc]
    split
    · simp only [List.mem_cons, ih]
      tauto
    · simp only [List.mem_cons]

theorem mem_sortDesc (key : α → κ) (b : α) (l : List α) :
    b ∈ sortDesc key l ↔ b ∈ l := by
  induction l with
  | nil => simp [sortDesc]
  | cons x xs ih => simp [sortDesc, mem_insDesc, ih]

theorem pairwise_insDesc (key : α → κ) (a : α) (l : List α)
    (h : l.Pairwise (fun x y => key y ≤ key x)) :
    (insDesc key a l).Pairwise (fun x y => key y ≤ key x) := by
  induction l with
  | nil => simp [insDesc]
  | cons y ys ih =>
    rw [List.pairwise_cons] at h
    obtain ⟨hy, hys⟩ := h
    simp only [insDesc]
    split
    · rename_i hlt
      rw [List.pairwise_cons]
      refine ⟨?_, ih hys⟩
      intro z hz
      rcases (mem_insDesc key a z ys).mp hz with rfl | hz'
      · exact le_of_lt hlt
      · exact hy z hz'
    · rename_i hge
      rw [List.pairwise_cons]
      refine ⟨?_, List.Pairwise.cons hy hys⟩
      intro z hz
      rcases List.mem_cons.mp hz with rfl | hz'
      · exact le_of_not_lt hge
      · exact le_trans (hy z hz') (le_of_not_lt hge)

theorem pairwise_sortDesc (key : α → κ) (l : List α) :
    (sortDesc key l).Pairwise (fun x y => key y ≤ key x) := by
  induction l with
  | nil => simp [sortDesc]
  | cons x xs ih => exact pairwise_insDesc key x (sortDesc key xs) ih

theorem sortDesc_congr (key₁ key₂ : α → κ) (l : List α)
    (h : ∀ a, key₁ a = key₂ a) : sortDesc key₁ l = sortDesc key₂ l := by
  have hk : key₁ = key₂ := funext h
  rw [hk]

end SortDesc

/-- The function `select_unseen(papers, seen, limit)` (lines 177-188).  Walks the list;
a record whose `"id"` is missing or empty (`not pid`) or already in `seen`
is skipped; otherwise it is appended to `selected`, its id added to
`new_seen`, and the loop breaks as soon as `len(selected) >= limit`
(checked after appending, so a non-positive limit still accepts one
record).  The `Int` argument is the remaining quota. -/
def select_unseen : List Paper → Finset String → Int → List Paper × Finset String
  | [], _, _ => ([], ∅)
  | p :: rest, seen, limit =>
    match p.id with
    | none => select_unseen rest seen limit
    | some pid =>
      if pid = "" ∨ pid ∈ seen then select_unseen rest seen limit
      else if (1 : Int) ≥ limit then ([p], {pid})
      else
        let r := select_unseen rest seen (limit - 1)
        (p :: r.1, insert pid r.2)

/-- The identifier of a record, the empty string when the `"id"` key is
missing (only used where well-formedness rules that case out). -/
def idOf (p : Paper) : String := p.id.getD ""

/-- A well-formed `DocumentRecord` in the sense of the spec's data model
(§3): the identifier is present and non-empty. -/
def wfId (p : Paper) : Prop := p.id ≠ none ∧ p.id ≠ some ""

instance (p : Paper) : Decidable (wfId p) := by unfold wfId; infer_instance

/-- Modelled from the spec's words (§4.5 step 1), for comparison with the
code: the effective score of a candidate is its cached score if present,
else 0. -/
def effective_score (scores : List (String × Int)) (p : Paper) : Int :=
  match p.id with
  | none => 0
  | some pid => (lookupScore scores pid).getD 0

/-- Modelled from the spec's words (§4.5 step 3), for comparison with the
code: walk the (already sorted) list, skip a candidate whose identifier is
already in the ledger, accept any other candidate, and stop once `n` are
accepted or the list is exhausted. -/
def claimWalk : List Paper → Finset String → Int → List Paper
  | [], _, _ => []
  | p :: rest, ledger, n =>
    if idOf p ∈ ledger then claimWalk rest ledger n
    else if (1 : Int) ≥ n then [p]
    else p :: claimWalk rest ledger (n - 1)

theorem paper_score_eq_effective (scores : List (String × Int)) (p : Paper) :
    paper_score scores p = effective_score scores p := by
  cases hid : p.id with
  | none => simp [paper_score, effective_score, hid]
  | some pid =>
    cases hl : lookupScore scores pid with
    | none => simp [paper_score, effective_score, hid, hl]
    | some v => simp [paper_score, effective_score, hid, hl]

/-- On lists of well-formed records, the code's walk coincides with the
spec's walk. -/
theorem select_unseen_eq_claimWalk (l : List Paper) (seen : Finset String)
    (limit : Int) (h : ∀ p ∈ l, wfId p) :
    (select_unseen l seen limit).1 = claimWalk l seen limit := by
  induction l generalizing limit with
  | nil => rfl
  | cons p rest ih =>
    have hp : wfId p := h p (List.mem_cons_self p rest)
    have hrest : ∀ q ∈ rest, wfId q := fun q hq => h q (List.mem_cons_of_mem p hq)
    obtain ⟨hne, hne'⟩ := hp
    match hid : p.id with
    | none => exact absurd hid hne
    | some pid =>
      have hpid : pid ≠ "" := by
        intro hcontra
        exact hne' (by rw [hid, hcontra])
      have hidOf : idOf p = pid := by simp [idOf, hid]
      simp only [select_unseen, claimWalk, hid, hidOf]
      by_cases hseen : pid ∈ seen
      · simp [hpid, hseen, ih limit hrest]
      · by_cases hlim : (1 : Int) ≥ limit
        · simp [hpid, hseen, hlim]
        · simp [hpid, hseen, hlim, ih (limit - 1) hrest]

/-- The code's ranking+selection stage (`main`, lines 349-357): stable
descending sort of the recency-filtered candidates by `paper_score`, then
`select_unseen`; the snapshot is the first component. -/
def code_select_stage (recent : List Paper) (scores : List (String × Int))
    (seen : Finset String) (limit : Int) : List Paper :=
  (select_unseen (sortDesc (paper_score scores) recent) seen limit).1

/-- Modelled from the spec's words (§4.5 steps 1-3), for comparison with
the code: stable descending sort by effective score, then the spec's
walk. -/
def claim_select_stage (recent : List Paper) (scores : List (String × Int))
    (seen : Finset String) (limit : Int) : List Paper :=
  claimWalk (sortDesc (effective_score scores) recent) seen limit

/-- C1: on well-formed candidate lists (every record carries a non-empty
identifier, as the spec's data model §3 guarantees for `DocumentRecord`),
the code's ranking+selection stage is exactly the spec's algorithm: stable
descending sort by effective score (cached score if present, else 0; ties
keep input order), then walk skipping ledger members and accepting others
until the quota is reached or the list ends.  The output is therefore a
function of the candidate list, score cache, ledger and quota alone. -/
theorem c1_selector_matches_spec (recent : List Paper)
    (scores : List (String × Int)) (seen : Finset String) (limit : Int)
    (h : ∀ p ∈ recent, wfId p) :
    code_select_stage recent scores seen limit
      = claim_select_stage recent scores seen limit := by
  unfold code_select_stage claim_select_stage
  rw [sortDesc_congr (paper_score scores) (effective_score scores) recent
    (paper_score_eq_effective scores)]
  apply select_unseen_eq_claimWalk
  intro p hp
  exact h p ((mem_sortDesc (effective_score scores) p recent).mp hp)

/-- C1 witness, the spec's concrete scenario: candidates C1(score 90,
newer), C2(score 90, older), C3(score 40), in date-descending input order,
empty ledger, quota 2: the code and the spec's algorithm agree, and the
snapshot is `[C1, C2]` (the 90-90 tie broken by input order, C3 cut by
the quota). -/
theorem c1_selector_witness :
    (∀ p ∈ [Paper.mk (some "C1") (some "2024-01-03"),
            Paper.mk (some "C2") (some "2024-01-02"),
            Paper.mk (some "C3") (some "2024-01-03")], wfId p)
    ∧ code_select_stage
        [Paper.mk (some "C1") (some "2024-01-03"),
         Paper.mk (some "C2") (some "2024-01-02"),
         Paper.mk (some "C3") (some "2024-01-03")]
        [("C1", 90), ("C2", 90), ("C3", 40)] ∅ 2
      = claim_select_stage
        [Paper.mk (some "C1") (some "2024-01-03"),
         Paper.mk (some "C2") (some "2024-01-02"),
         Paper.mk (some "C3") (some "2024-01-03")]
        [("C1", 90), ("C2", 90), ("C3", 40)] ∅ 2
    ∧ code_select_stage
        [Paper.mk (some "C1") (some "2024-01-03"),
         Paper.mk (some "C2") (some "2024-01-02"),
         Paper.mk (some "C3") (some "2024-01-03")]
        [("C1", 90), ("C2", 90), ("C3", 40)] ∅ 2
      = [Paper.mk (some "C1") (some "2024-01-03"),
         Paper.mk (some "C2") (some "2024-01-02")] :=
  ⟨by decide,
   c1_selector_matches_spec _ _ _ _ (by decide),
   by decide⟩

/-- The identifier set of a snapshot (the selected records' ids). -/
def snapIds (l : List Paper) : Finset String := (l.filterMap Paper.id).toFinset

theorem select_unseen_wf (l : List Paper) (seen : Finset String) (limit : Int) :
    ∀ p ∈ (select_unseen l seen limit).1, wfId p ∧ idOf p ∉ seen := by
  induction l generalizing limit with
  | nil => intro p hp; simp [select_unseen] at hp
  | cons q rest ih =>
    intro p hp
    match hid : q.id with
    | none =>
      simp only [select_unseen, hid] at hp
      exact ih limit p hp
    | some pid =>
      simp only [select_unseen, hid] at hp
      by_cases hc : pid = "" ∨ pid ∈ seen
      · rw [if_pos hc] at hp
        exact ih limit p hp
      · rw [if_neg hc] at hp
        push_neg at hc
        obtain ⟨hpid, hseen⟩ := hc
        by_cases hlim : (1 : Int) ≥ limit
        · rw [if_pos hlim] at hp
          simp only [List.mem_singleton] at hp
          subst hp
          refine ⟨⟨by simp [hid], by simp [hid, hpid]⟩, ?_⟩
          simp [idOf, hid, hseen]
        · rw [if_neg hlim] at hp
          simp only [List.mem_cons] at hp
          rcases hp with rfl | hp'
          · refine ⟨⟨by simp [hid], by simp [hid, hpid]⟩, ?_⟩
            simp [idOf, hid, hseen]
          · exact ih (limit - 1) p hp'

theorem select_unseen_new_seen_eq (l : List Paper) (seen : Finset String)
    (limit : Int) :
    (select_unseen l seen limit).2 = snapIds (select_unseen l seen limit).1 := by
  induction l generalizing limit with
  | nil => simp [select_unseen, snapIds]
  | cons q rest ih =>
    match hid : q.id with
    | none => simp only [select_unseen, hid]; exact ih limit
    | some pid =>
      simp only [select_unseen, hid]
      by_cases hc : pid = "" ∨ pid ∈ seen
      · rw [if_pos hc]
        exact ih limit
      · rw [if_neg hc]
        by_cases hlim : (1 : Int) ≥ limit
        · rw [if_pos hlim]
          simp [snapIds, hid]
        · rw [if_neg hlim]
          simp only [snapIds, List.filterMap_cons, hid, List.toFinset_cons]
          rw [ih (limit - 1)]
          rfl

/-- C10: `select_unseen` never selects a record whose identifier is missing
or empty, and the returned set of new identifiers is exactly the set of
identifiers of the selected records. -/
theorem c10_select_ids_exact (l : List Paper) (seen : Finset String)
    (limit : Int) :
    (∀ p ∈ (select_unseen l seen limit).1, wfId p)
    ∧ (select_unseen l seen limit).2 = snapIds (select_unseen l seen limit).1 :=
  ⟨fun p hp => (select_unseen_wf l seen limit p hp).1,
   select_unseen_new_seen_eq l seen limit⟩

/-- C10 witness: at a concrete input the theorem yields well-formedness of
a concretely selected record and the exact identifier-set equality. -/
theorem c10_select_ids_exact_witness :
    wfId (Paper.mk (some "a") none)
    ∧ (select_unseen [Paper.mk none none, Paper.mk (some "a") none,
          Paper.mk (some "a") none] ∅ 5).2
      = snapIds (select_unseen [Paper.mk none none, Paper.mk (some "a") none,
          Paper.mk (some "a") none] ∅ 5).1 :=
  ⟨(c10_select_ids_exact [Paper.mk none none, Paper.mk (some "a") none,
      Paper.mk (some "a") none] ∅ 5).1 (Paper.mk (some "a") none) (by decide),
   (c10_select_ids_exact [Paper.mk none none, Paper.mk (some "a") none,
      Paper.mk (some "a") none] ∅ 5).2⟩

/-- One run's commit step as performed by `main` (lines 357-372): the run's
snapshot is `select_unseen`'s first component and the ledger grows by the
returned new identifiers (when `new_seen` is empty the ledger file is left
alone, which is the same ledger). A sequence of runs threads the ledger
through; each run's already-ranked candidate list and quota are the run's
input. -/
def runAll : List (List Paper × Int) → Finset String → List (List Paper) × Finset String
  | [], seen => ([], seen)
  | (ranked, limit) :: rest, seen =>
    let r := select_unseen ranked seen limit
    let rr := runAll rest (seen ∪ r.2)
    (r.1 :: rr.1, rr.2)

theorem snapIds_not_seen (l : List Paper) (seen : Finset String) (limit : Int) :
    Disjoint seen (snapIds (select_unseen l seen limit).1) := by
  rw [Finset.disjoint_right]
  intro x hx
  simp only [snapIds, List.mem_toFinset, List.mem_filterMap] at hx
  obtain ⟨p, hp, hpid⟩ := hx
  have := (select_unseen_wf l seen limit p hp).2
  have hidOf : idOf p = x := by simp [idOf, hpid]
  rw [hidOf] at this
  exact this

theorem runAll_snap_disjoint_seen (inputs : List (List Paper × Int))
    (seen : Finset String) :
    ∀ t ∈ (runAll inputs seen).1, Disjoint seen (snapIds t) := by
  induction inputs generalizing seen with
  | nil => intro t ht; simp [runAll] at ht
  | cons i rest ih =>
    intro t ht
    obtain ⟨ranked, limit⟩ := i
    simp only [runAll, List.mem_cons] at ht
    rcases ht with rfl | ht'
    · exact snapIds_not_seen ranked seen limit
    · have := ih (seen ∪ (select_unseen ranked seen limit).2) t ht'
      exact Finset.disjoint_of_subset_left Finset.subset_union_left this

/-- C2: across any sequence of runs from any initial ledger, the snapshots'
identifier sets are pairwise disjoint (an identifier appears in at most one
snapshot, ever), and the ledger only grows. -/
theorem c2_snapshots_pairwise_disjoint (inputs : List (List Paper × Int))
    (seen : Finset String) :
    (runAll inputs seen).1.Pairwise (fun s t => Disjoint (snapIds s) (snapIds t))
    ∧ seen ⊆ (runAll inputs seen).2 := by
  induction inputs generalizing seen with
  | nil => exact ⟨List.Pairwise.nil, Finset.Subset.refl seen⟩
  | cons i rest ih =>
    obtain ⟨ranked, limit⟩ := i
    simp only [runAll]
    constructor
    · rw [List.pairwise_cons]
      constructor
      · intro t ht
        have hdisj := runAll_snap_disjoint_seen rest
          (seen ∪ (select_unseen ranked seen limit).2) t ht
        refine Finset.disjoint_of_subset_left ?_
          (Finset.disjoint_of_subset_left Finset.subset_union_right hdisj)
        rw [select_unseen_new_seen_eq]
      · exact (ih (seen ∪ (select_unseen ranked seen limit).2)).1
    · exact Finset.Subset.trans Finset.subset_union_left
        (ih (seen ∪ (select_unseen ranked seen limit).2)).2

/-- A record eligible for selection against ledger `seen`: present
non-empty identifier not already in the ledger. -/
def eligible (seen : Finset String) (p : Paper) : Prop :=
  ∃ pid, p.id = some pid ∧ pid ≠ "" ∧ pid ∉ seen

/-- Boolean form of `eligible`, matching the guard in `select_unseen`. -/
def eligibleB (seen : Finset String) (p : Paper) : Bool :=
  match p.id with
  | none => false
  | some pid => if pid = "" ∨ pid ∈ seen then false else true

theorem eligibleB_eq_true_iff (seen : Finset String) (p : Paper) :
    eligibleB seen p = true ↔ eligible seen p := by
  cases hid : p.id with
  | none => simp [eligibleB, eligible, hid]
  | some pid =>
    simp only [eligibleB, eligible, hid]
    by_cases hc : pid = "" ∨ pid ∈ seen
    · rw [if_pos hc]
      constructor
      · intro hfalse
        exact absurd hfalse (by simp)
      · rintro ⟨pid', hpid', hne, hns⟩
        injection hpid' with he
        subst he
        rcases hc with hc | hc
        · exact absurd hc hne
        · exact absurd hc hns
    · rw [if_neg hc]
      push_neg at hc
      constructor
      · intro _
        exact ⟨pid, rfl, hc.1, hc.2⟩
      · intro _
        rfl

/-- If the first run's selection came in under the quota (the loop never
broke), every eligible candidate's identifier ended up in `new_seen`. -/
theorem no_break_all_eligible (l : List Paper) (seen : Finset String)
    (limit : Int)
    (h : ((select_unseen l seen limit).1.length : Int) < limit) :
    ∀ p ∈ l, eligible seen p → idOf p ∈ (select_unseen l seen limit).2 := by
  induction l generalizing limit with
  | nil => intro p hp; simp at hp
  | cons q rest ih =>
    intro p hp hel
    match hid : q.id with
    | none =>
      simp only [select_unseen, hid] at h ⊢
      rcases List.mem_cons.mp hp with rfl | hp'
      · obtain ⟨pid, hpid, _⟩ := hel
        rw [hid] at hpid
        exact absurd hpid (by simp)
      · exact ih limit h p hp' hel
    | some pid =>
      simp only [select_unseen, hid] at h ⊢
      by_cases hc : pid = "" ∨ pid ∈ seen
      · rw [if_pos hc] at h ⊢
        rcases List.mem_cons.mp hp with rfl | hp'
        · obtain ⟨pid', hpid', hne, hns⟩ := hel
          rw [hid] at hpid'
          have : pid = pid' := by injection hpid'
          subst this
          rcases hc with hc | hc
          · exact absurd hc hne
          · exact absurd hc hns
        · exact ih limit h p hp' hel
      · rw [if_neg hc] at h ⊢
        by_cases hlim : (1 : Int) ≥ limit
        · rw [if_pos hlim] at h
          simp only [List.length_singleton] at h
          omega
        · rw [if_neg hlim] at h ⊢
          simp only [List.length_cons] at h
          have hrest : ((select_unseen rest seen (limit - 1)).1.length : Int)
              < limit - 1 := by
            push_cast at h ⊢
            omega
          rcases List.mem_cons.mp hp with rfl | hp'
          · simp [idOf, hid]
          · exact Finset.mem_insert_of_mem (ih (limit - 1) hrest p hp' hel)

/-- When every candidate that was eligible against `seen` has its
identifier in `extra`, a selection against `seen ∪ extra` accepts
nothing. -/
theorem select_unseen_empty_of_covered (l : List Paper) (seen extra : Finset String)
    (limit : Int) (h : ∀ p ∈ l, eligible seen p → idOf p ∈ extra) :
    (select_unseen l (seen ∪ extra) limit).1 = [] := by
  induction l with
  | nil => rfl
  | cons q rest ih =>
    have hrest : ∀ p ∈ rest, eligible seen p → idOf p ∈ extra :=
      fun p hp => h p (List.mem_cons_of_mem q hp)
    match hid : q.id with
    | none =>
      simp only [select_unseen, hid]
      exact ih hrest
    | some pid =>
      simp only [select_unseen, hid]
      have hcov : pid = "" ∨ pid ∈ seen ∪ extra := by
        by_cases hpid : pid = ""
        · exact Or.inl hpid
        · by_cases hseen : pid ∈ seen
          · exact Or.inr (Finset.mem_union_left extra hseen)
          · have hel : eligible seen q := ⟨pid, hid, hpid, hseen⟩
            have := h q (List.mem_cons_self q rest) hel
            rw [idOf, hid] at this
            exact Or.inr (Finset.mem_union_right seen this)
      rw [if_pos hcov]
      exact ih hrest

/-- C4 counterexample: two candidates, quota 1, empty initial ledger.  The
first run selects `[a]`; the immediately repeated run with the same
candidate list does NOT produce an empty snapshot — it selects `[b]`.  The
claim ("the second run's Selector excludes every candidate", second
snapshot empty) is therefore false as stated. -/
theorem c4_second_run_counterexample :
    (runAll [([Paper.mk (some "a") none, Paper.mk (some "b") none], 1),
             ([Paper.mk (some "a") none, Paper.mk (some "b") none], 1)] ∅).1
      = [[Paper.mk (some "a") none], [Paper.mk (some "b") none]]
    ∧ [Paper.mk (some "b") none] ≠ ([] : List Paper) := by
  refine ⟨by decide, by decide⟩

/-- C4 amended: when the first run's selection came in strictly under the
quota (so the Selector exhausted the candidate list rather than stopping
at the quota), an immediately repeated run over the same ranked candidate
list against the committed ledger selects nothing; the second snapshot is
empty. -/
theorem c4_second_run_empty_when_under_quota (l : List Paper)
    (seen : Finset String) (limit : Int)
    (h : ((select_unseen l seen limit).1.length : Int) < limit) :
    (select_unseen l (seen ∪ (select_unseen l seen limit).2) limit).1 = [] :=
  select_unseen_empty_of_covered l seen (select_unseen l seen limit).2 limit
    (no_break_all_eligible l seen limit h)

/-- C4 witness: a single candidate with quota 5 — run one selects it and
stays under quota, so the repeated run is empty. -/
theorem c4_second_run_empty_witness :
    (((select_unseen [Paper.mk (some "a") none] ∅ 5).1.length : Int) < 5)
    ∧ (select_unseen [Paper.mk (some "a") none]
        (∅ ∪ (select_unseen [Paper.mk (some "a") none] ∅ 5).2) 5).1 = [] :=
  ⟨by decide,
   c4_second_run_empty_when_under_quota [Paper.mk (some "a") none] ∅ 5 (by decide)⟩

/-- C9 counterexample: no pre-run quota validation exists; with quota 0
and one eligible candidate, `select_unseen` still selects it (the
`len(selected) >= limit` break fires only after the first append), so a
snapshot with a nonzero number of records is produced under quota ≤ 0 —
the claim is false as stated. -/
theorem c9_quota_zero_counterexample :
    (select_unseen [Paper.mk (some "a") none] ∅ 0).1.length = 1 := by decide

/-- C9 amended: quota ≤ 0 is not validated anywhere; `select_unseen`
invoked with a non-positive quota selects exactly one record whenever an
eligible candidate exists (and none otherwise). -/
theorem c9_nonpositive_quota_selects_one (l : List Paper)
    (seen : Finset String) (limit : Int) (h : limit ≤ 0) :
    (select_unseen l seen limit).1.length
      = if l.any (eligibleB seen) then 1 else 0 := by
  induction l with
  | nil => simp [select_unseen]
  | cons q rest ih =>
    match hid : q.id with
    | none =>
      have hq : eligibleB seen q = false := by simp [eligibleB, hid]
      simp only [select_unseen, hid, List.any_cons, hq, Bool.false_or]
      exact ih
    | some pid =>
      by_cases hc : pid = "" ∨ pid ∈ seen
      · have hq : eligibleB seen q = false := by simp [eligibleB, hid, hc]
        simp only [select_unseen, hid, if_pos hc, List.any_cons, hq, Bool.false_or]
        exact ih
      · have hq : eligibleB seen q = true := by simp [eligibleB, hid, hc]
        have hlim : (1 : Int) ≥ limit := by omega
        simp [select_unseen, hid, if_neg hc, if_pos hlim, List.any_cons, hq]

/-- C9 witness: quota 0 with one eligible candidate — the amended theorem
evaluates to a one-record snapshot at a concrete input. -/
theorem c9_nonpositive_quota_witness :
    ((0 : Int) ≤ 0)
    ∧ (select_unseen [Paper.mk none none, Paper.mk (some "a") none] ∅ 0).1.length
      = if List.any [Paper.mk none none, Paper.mk (some "a") none] (eligibleB ∅)
        then 1 else 0 :=
  ⟨le_refl 0,
   c9_nonpositive_quota_selects_one
     [Paper.mk none none, Paper.mk (some "a") none] ∅ 0 (le_refl 0)⟩

/-- The scoring pass of `main` (lines 330-345), abstracted over the oracle
(`score_with_deepseek` applied to whatever the service answers; `none` is a
failed call).  For each recency-filtered record in order: skip it when its
id is missing/empty (`not pid`) or already a cache key; otherwise submit it
to the oracle and, on success, insert the result under its id.  Returns the
updated cache together with the list of submitted identifiers. -/
def score_pass (oracle : Paper → Option Int) :
    List Paper → List (String × Int) → List (String × Int) × List String
  | [], scores => (scores, [])
  | p :: rest, scores =>
    match p.id with
    | none => score_pass oracle rest scores
    | some pid =>
      if pid = "" ∨ (lookupScore scores pid).isSome then
        score_pass oracle rest scores
      else
        let r := match oracle p with
          | some s => score_pass oracle rest ((pid, s) :: scores)
          | none => score_pass oracle rest scores
        (r.1, pid :: r.2)

theorem lookupScore_cons_ne (k pid : String) (v : Int)
    (m : List (String × Int)) (h : k ≠ pid) :
    lookupScore ((k, v) :: m) pid = lookupScore m pid := by
  simp [lookupScore, h]

/-- C6: the Score Cache is write-once per key.  Whatever the oracle would
return, an identifier that is cached when the pass starts is never
submitted to the oracle, and its cached value is unchanged when the pass
ends. -/
theorem c6_cache_write_once (oracle : Paper → Option Int) (recent : List Paper)
    (scores : List (String × Int)) (pid : String) (v : Int)
    (h : lookupScore scores pid = some v) :
    lookupScore (score_pass oracle recent scores).1 pid = some v
    ∧ pid ∉ (score_pass oracle recent scores).2 := by
  induction recent generalizing scores with
  | nil => exact ⟨h, by simp [score_pass]⟩
  | cons q rest ih =>
    match hid : q.id with
    | none =>
      simp only [score_pass, hid]
      exact ih scores h
    | some qid =>
      simp only [score_pass, hid]
      by_cases hc : qid = "" ∨ (lookupScore scores qid).isSome
      · rw [if_pos hc]
        exact ih scores h
      · rw [if_neg hc]
        push_neg at hc
        have hqid : qid ≠ pid := by
          intro he
          subst he
          have hsome : (lookupScore scores qid).isSome = true := by simp [h]
          exact hc.2 hsome
        cases horc : oracle q with
        | some s =>
          simp only [horc]
          have h' : lookupScore ((qid, s) :: scores) pid = some v := by
            rw [lookupScore_cons_ne qid pid s scores hqid]
            exact h
          obtain ⟨h1, h2⟩ := ih ((qid, s) :: scores) h'
          refine ⟨h1, ?_⟩
          simp only [List.mem_cons]
          rintro (rfl | hmem)
          · exact hqid rfl
          · exact h2 hmem
        | none =>
          simp only [horc]
          obtain ⟨h1, h2⟩ := ih scores h
          refine ⟨h1, ?_⟩
          simp only [List.mem_cons]
          rintro (rfl | hmem)
          · exact hqid rfl
          · exact h2 hmem

/-- C6 witness: a cached id `"P1"` with a differently-answering oracle —
the cache still maps `"P1"` to its old value after the pass and `"P1"` was
never submitted. -/
theorem c6_cache_write_once_witness :
    lookupScore [("P1", (90 : Int))] "P1" = some 90
    ∧ lookupScore (score_pass (fun _ => some 55)
        [Paper.mk (some "P1") none, Paper.mk (some "P2") none]
        [("P1", 90)]).1 "P1" = some 90
    ∧ "P1" ∉ (score_pass (fun _ => some 55)
        [Paper.mk (some "P1") none, Paper.mk (some "P2") none]
        [("P1", 90)]).2 :=
  ⟨by decide,
   (c6_cache_write_once (fun _ => some 55)
      [Paper.mk (some "P1") none, Paper.mk (some "P2") none]
      [("P1", 90)] "P1" 90 (by decide)).1,
   (c6_cache_write_once (fun _ => some 55)
      [Paper.mk (some "P1") none, Paper.mk (some "P2") none]
      [("P1", 90)] "P1" 90 (by decide)).2⟩

/-! ### Durable stores: JSON values, loading (C3) and saving (C5)

A durable store is `Option (Option Json)`: `none` when the file is absent,
`some none` when it is present but `json.load` fails (structurally invalid
content), `some (some j)` when it parses to the JSON value `j`. -/

/-- Parsed JSON values.  Numbers are modelled as integers: every score this
pipeline ever writes is a Python `int`, and no claim depends on float
payloads. -/
inductive Json where
  | null
  | bool (b : Bool)
  | num (n : Int)
  | str (s : String)
  | arr (xs : List Json)
  | obj (kvs : List (String × Json))

/-- Python `str(x)` on a parsed JSON value (used by
`set(str(x) for x in data)`).  Containers stringify via `repr`, which no
claim inspects; a fixed marker keeps the function total. -/
def pyStr : Json → String
  | .null => "None"
  | .bool b => if b then "True" else "False"
  | .num n => toString n
  | .str s => s
  | .arr _ => "<list repr>"
  | .obj _ => "<dict repr>"

/-- Python `int(v)` on a parsed JSON value: ints pass through, booleans are
0/1, strings of an (optionally signed, whitespace-stripped) decimal parse,
everything else raises. -/
def pyIntOfChars : List Char → Option Int
  | [] => none
  | cs =>
    let cs := cs.dropWhile (fun c => c = ' ' ∨ c = '\t' ∨ c = '\n' ∨ c = '\r')
    let cs := (cs.reverse.dropWhile (fun c => c = ' ' ∨ c = '\t' ∨ c = '\n' ∨ c = '\r')).reverse
    let (neg, digits) :=
      match cs with
      | '-' :: rest => (true, rest)
      | '+' :: rest => (false, rest)
      | rest => (false, rest)
    if digits ≠ [] ∧ digits.all Char.isDigit then
      let n : Int := digits.foldl (fun acc c => acc * 10 + (c.toNat - 48 : Int)) 0
      some (if neg then -n else n)
    else none

def pyInt : Json → Option Int
  | .num n => some n
  | .bool b => some (if b then 1 else 0)
  | .str s => pyIntOfChars s.data
  | _ => none

/-- The loader `load_seen_ids` (lines 156-167), with the result in `Except` so that
"aborts the run" is statable.  Absent file: empty set.  Unparseable file:
the `except Exception` clause returns the empty set.  Parsed non-list:
falls through to the final `return set()`.  Parsed list: the set of
stringified members.  No branch raises. -/
def load_seen_ids : Option (Option Json) → Except String (Finset String)
  | none => .ok ∅
  | some none => .ok ∅
  | some (some (.arr xs)) => .ok (xs.map pyStr).toFinset
  | some (some _) => .ok ∅

/-- Python `int(v)` over all values of a parsed dict, all-or-nothing (a single
failure raises out of the dict comprehension). -/
def intifyValues : List (String × Json) → Option (List (String × Int))
  | [] => some []
  | (k, v) :: rest =>
    match pyInt v with
    | none => none
    | some n =>
      match intifyValues rest with
      | none => none
      | some tail => some ((k, n) :: tail)

/-- The loader `load_scores` (lines 191-202), in `Except` form.  Absent: empty cache.
Unparseable, parsed non-dict, or any value not convertible by `int`: empty
cache via the `except`/fall-through paths.  No branch raises. -/
def load_scores : Option (Option Json) → Except String (List (String × Int))
  | none => .ok []
  | some none => .ok []
  | some (some (.obj kvs)) =>
    match intifyValues kvs with
    | some m => .ok m
    | none => .ok []
  | some (some _) => .ok []

/-- C3 counterexample: a present-but-unparseable store (`some none`) makes
both loaders silently return the empty ledger / empty cache — they do not
abort, contradicting the claim that a corrupt store is a fatal error and
that `load()` never silently returns empty for it. -/
theorem c3_corrupt_store_counterexample :
    load_seen_ids (some none) = Except.ok (∅ : Finset String)
    ∧ load_scores (some none) = Except.ok ([] : List (String × Int)) :=
  ⟨rfl, rfl⟩

/-- C3 amended: loading never aborts the run for any store state; a
present-but-corrupt store (and a parseable store of the wrong shape)
silently yields the empty ledger / empty cache. -/
theorem c3_load_never_aborts (st : Option (Option Json)) :
    (∃ v, load_seen_ids st = Except.ok v)
    ∧ (∃ w, load_scores st = Except.ok w) := by
  constructor
  · match st with
    | none => exact ⟨∅, rfl⟩
    | some none => exact ⟨∅, rfl⟩
    | some (some (.arr xs)) => exact ⟨(xs.map pyStr).toFinset, rfl⟩
    | some (some .null) => exact ⟨∅, rfl⟩
    | some (some (.bool b)) => exact ⟨∅, rfl⟩
    | some (some (.num n)) => exact ⟨∅, rfl⟩
    | some (some (.str s)) => exact ⟨∅, rfl⟩
    | some (some (.obj kvs)) => exact ⟨∅, rfl⟩
  · match st with
    | none => exact ⟨[], rfl⟩
    | some none => exact ⟨[], rfl⟩
    | some (some (.obj kvs)) =>
      cases h : intifyValues kvs with
      | none => exact ⟨[], by simp [load_scores, h]⟩
      | some m => exact ⟨m, by simp [load_scores, h]⟩
    | some (some .null) => exact ⟨[], rfl⟩
    | some (some (.bool b)) => exact ⟨[], rfl⟩
    | some (some (.num n)) => exact ⟨[], rfl⟩
    | some (some (.str s)) => exact ⟨[], rfl⟩
    | some (some (.arr xs)) => exact ⟨[], rfl⟩

/-- A file-system operation, for modelling the save paths as traces.
`α` is the serialized payload type. -/
inductive FsOp (α : Type) where
  | mkdirs (p : String)
  | openTrunc (p : String)
  | writeData (payload : α)
  | rename (src dst : String)
  | closeFile
deriving DecidableEq

def seen_ids_path : String := "data/seen_ids.json"

def scores_path : String := "data/scores.json"

/-- The commit `save_seen_ids` (lines 170-174) as its trace of file-system
operations: make the data directory, open the canonical file itself with
mode `"w"` (truncating), `json.dump` the sorted id list, close. -/
def save_seen_ids (seen : Finset String) : List (FsOp (List String)) :=
  [.mkdirs "data", .openTrunc seen_ids_path,
   .writeData (seen.sort (· ≤ ·)), .closeFile]

/-- The commit `save_scores` (lines 205-209) as its trace: make the data directory,
open the canonical file with mode `"w"`, `json.dump` the score mapping,
close. -/
def save_scores (scores : List (String × Int)) : List (FsOp (List (String × Int))) :=
  [.mkdirs "data", .openTrunc scores_path, .writeData scores, .closeFile]

/-- Whether an operation is a rename. -/
def FsOp.isRenameB {α : Type} : FsOp α → Bool
  | .rename _ _ => true
  | _ => false

/-- The claim's atomic-replace pattern: some temporary path distinct from
the canonical one is written and then atomically renamed onto the
canonical path. -/
def atomic_replace_pattern {α : Type} (ops : List (FsOp α)) (canonical : String) : Prop :=
  ∃ tmp, tmp ≠ canonical ∧ FsOp.openTrunc tmp ∈ ops
    ∧ FsOp.rename tmp canonical ∈ ops

/-- C5 counterexample: neither save path follows the write-temp-then-rename
pattern the claim asserts — their traces contain no rename at all, so the
claim is false as stated at these concrete inputs. -/
theorem c5_no_atomic_rename_counterexample :
    ¬ atomic_replace_pattern (save_seen_ids {"x"}) seen_ids_path
    ∧ ¬ atomic_replace_pattern (save_scores [("x", 1)]) scores_path := by
  constructor
  · rintro ⟨tmp, hne, hopen, hren⟩
    simp [save_seen_ids] at hren
  · rintro ⟨tmp, hne, hopen, hren⟩
    simp [save_scores] at hren

/-- C5 amended: both saves open the canonical path itself for a truncating
write and their traces contain no rename operation, so the
temp-file-plus-atomic-rename mechanism is absent; a crash between the
truncating open and the completed write can leave a partial file. -/
theorem c5_save_writes_in_place (seen : Finset String)
    (scores : List (String × Int)) :
    FsOp.openTrunc seen_ids_path ∈ save_seen_ids seen
    ∧ (∀ op ∈ save_seen_ids seen, op.isRenameB = false)
    ∧ FsOp.openTrunc scores_path ∈ save_scores scores
    ∧ (∀ op ∈ save_scores scores, op.isRenameB = false) := by
  refine ⟨by simp [save_seen_ids], ?_, by simp [save_scores], ?_⟩
  · intro op hop
    simp only [save_seen_ids, List.mem_cons, List.mem_singleton] at hop
    rcases hop with rfl | rfl | rfl | (rfl | h)
    · rfl
    · rfl
    · rfl
    · rfl
    · simp at h
  · intro op hop
    simp only [save_scores, List.mem_cons, List.mem_singleton] at hop
    rcases hop with rfl | rfl | rfl | (rfl | h)
    · rfl
    · rfl
    · rfl
    · rfl
    · simp at h

/-- C5 witness: the amended theorem applied at concrete stores, with the
membership hypothesis discharged on the write operation itself. -/
theorem c5_save_writes_in_place_witness :
    FsOp.openTrunc seen_ids_path ∈ save_seen_ids {"x"}
    ∧ (FsOp.writeData (({"x"} : Finset String).sort (· ≤ ·))).isRenameB = false :=
  ⟨(c5_save_writes_in_place {"x"} []).1,
   (c5_save_writes_in_place {"x"} []).2.1
     (FsOp.writeData (({"x"} : Finset String).sort (· ≤ ·))) (by simp [save_seen_ids])⟩

/-! ### Recency filter (C7)

`datetime.strptime(pub_str, "%Y-%m-%d")` is embedded as `parse_pub_date`:
`%Y` matches exactly four digits, `%m`/`%d` one or two digits in range
(CPython's `_strptime` patterns), the whole string must be consumed, and
`datetime` construction additionally checks the day against the month
length and `year >= 1`.  A parsed date at midnight is mapped to whole
seconds since the epoch through the standard days-from-civil formula,
which is order-isomorphic to `datetime` comparison; `now` (from
`datetime.utcnow()`) is likewise an epoch-seconds value and
`timedelta(days=days)` is `days * 86400` seconds. -/

def digitsToNat (cs : List Char) : Nat :=
  cs.foldl (fun acc c => acc * 10 + (c.toNat - 48)) 0

def isLeap (y : Nat) : Bool :=
  y % 4 = 0 ∧ (y % 100 ≠ 0 ∨ y % 400 = 0)

def daysInMonth (y m : Nat) : Nat :=
  if m = 1 then 31 else if m = 2 then (if isLeap y then 29 else 28)
  else if m = 3 then 31 else if m = 4 then 30 else if m = 5 then 31
  else if m = 6 then 30 else if m = 7 then 31 else if m = 8 then 31
  else if m = 9 then 30 else if m = 10 then 31 else if m = 11 then 30
  else 31

/-- Python `s.split("-")` for the single-character separator `"-"`, over the
character list. -/
def splitDash : List Char → List (List Char)
  | [] => [[]]
  | c :: rest =>
    if c = '-' then [] :: splitDash rest
    else
      match splitDash rest with
      | g :: gs => (c :: g) :: gs
      | [] => [[c]]

/-- Python `datetime.strptime(s, "%Y-%m-%d")`, returning year/month/day on
success. -/
def parse_pub_date (s : String) : Option (Nat × Nat × Nat) :=
  match splitDash s.data with
  | [ys, ms, ds] =>
    if ys.length = 4 ∧ ys.all Char.isDigit
        ∧ 1 ≤ ms.length ∧ ms.length ≤ 2 ∧ ms.all Char.isDigit
        ∧ 1 ≤ ds.length ∧ ds.length ≤ 2 ∧ ds.all Char.isDigit then
      let y := digitsToNat ys
      let m := digitsToNat ms
      let d := digitsToNat ds
      if 1 ≤ y ∧ 1 ≤ m ∧ m ≤ 12 ∧ 1 ≤ d ∧ d ≤ daysInMonth y m then
        some (y, m, d)
      else none
    else none
  | _ => none

/-- Days since 1970-01-01 of a civil date (Gregorian, `y ≥ 1`): the
standard days-from-civil formula, order-isomorphic to `datetime.date`
comparison. -/
def daysFromCivil (y m d : Int) : Int :=
  let y' := if m ≤ 2 then y - 1 else y
  let era := y' / 400
  let yoe := y' - era * 400
  let mp := (m + 9) % 12
  let doy := (153 * mp + 2) / 5 + d - 1
  let doe := yoe * 365 + yoe / 4 - yoe / 100 + doy
  era * 146097 + doe - 719468

/-- Midnight of a parsed date as epoch seconds. -/
def dateTs (ymd : Nat × Nat × Nat) : Int :=
  86400 * daysFromCivil (ymd.1 : Int) (ymd.2.1 : Int) (ymd.2.2 : Int)

/-- The per-record keep test of the `filter_recent` loop (lines 142-150):
parse the `published` field, drop the record on any parse failure
(including a missing field), and drop it when `pub_dt < threshold`; there
is no upper bound against `now`. -/
def keepRecent (now days : Int) (p : Paper) : Bool :=
  match p.published with
  | none => false
  | some s =>
    match parse_pub_date s with
    | none => false
    | some ymd => if dateTs ymd < now - days * 86400 then false else true

/-- The sort key of line 152: the raw `published` string, `""` when
missing. -/
def pubKey (p : Paper) : String := p.published.getD ""

/-- The function `filter_recent(papers, days)` (lines 137-153): the loop keeps records
passing `keepRecent` in input order, then `list.sort(key=..., reverse=True)`
stable-sorts them descending by the raw `published` string. -/
def filter_recent (now days : Int) : List Paper → List Paper :=
  fun papers => sortDesc pubKey (filterLoop papers)
where
  filterLoop : List Paper → List Paper
    | [] => []
    | p :: rest =>
      if keepRecent now days p then p :: filterLoop rest else filterLoop rest

/-- Modelled from the claim's words, for comparison with the code: keep
exactly the records whose date parses and lies within
`[now - window, now]` inclusive — both bounds enforced — sorted descending
by the publication date itself. -/
def claim_filter_recent (now days : Int) (papers : List Paper) : List Paper :=
  sortDesc (fun p => ((p.published.bind parse_pub_date).map dateTs).getD 0)
    (papers.filter (fun p =>
      match p.published with
      | none => false
      | some s =>
        match parse_pub_date s with
        | none => false
        | some ymd =>
          if now - days * 86400 ≤ dateTs ymd ∧ dateTs ymd ≤ now then true
          else false))

/-- C7 counterexample: with `now` at midnight 2024-01-15, a record dated
2024-01-16 — in the future, outside `[now - window, now]` — is *kept* by
the code (`filter_recent` enforces no upper bound), while the claim's
filter drops it. -/
theorem c7_future_date_counterexample :
    filter_recent (86400 * daysFromCivil 2024 1 15) 30
        [Paper.mk (some "F") (some "2024-01-16")]
      = [Paper.mk (some "F") (some "2024-01-16")]
    ∧ claim_filter_recent (86400 * daysFromCivil 2024 1 15) 30
        [Paper.mk (some "F") (some "2024-01-16")]
      = [] := by
  refine ⟨by decide, by decide⟩

theorem mem_filterLoop (now days : Int) (papers : List Paper) (p : Paper) :
    p ∈ filter_recent.filterLoop now days papers
      ↔ p ∈ papers ∧ keepRecent now days p = true := by
  induction papers with
  | nil => simp [filter_recent.filterLoop]
  | cons q rest ih =>
    by_cases hq : keepRecent now days q = true
    · simp only [filter_recent.filterLoop, if_pos hq, List.mem_cons, ih]
      constructor
      · rintro (rfl | ⟨hmem, hk⟩)
        · exact ⟨Or.inl rfl, hq⟩
        · exact ⟨Or.inr hmem, hk⟩
      · rintro ⟨rfl | hmem, hk⟩
        · exact Or.inl rfl
        · exact Or.inr ⟨hmem, hk⟩
    · simp only [filter_recent.filterLoop, if_neg hq, ih, List.mem_cons]
      constructor
      · rintro ⟨hmem, hk⟩
        exact ⟨Or.inr hmem, hk⟩
      · rintro ⟨rfl | hmem, hk⟩
        · exact absurd hk hq
        · exact ⟨hmem, hk⟩

/-- C7 amended: `filter_recent` returns exactly the records whose
`published` field parses under `%Y-%m-%d` and is not older than
`now - window` — records with missing or unparseable dates are dropped,
but there is no upper bound, so future-dated records are retained — and
the result is sorted descending by the raw `published` string (the stable
sort's tie behaviour preserves input order). -/
theorem c7_filter_recent_characterization (now days : Int) (papers : List Paper) :
    (∀ p, p ∈ filter_recent now days papers
      ↔ p ∈ papers ∧ keepRecent now days p = true)
    ∧ (filter_recent now days papers).Pairwise (fun a b => pubKey b ≤ pubKey a) := by
  constructor
  · intro p
    unfold filter_recent
    rw [mem_sortDesc]
    exact mem_filterLoop now days papers p
  · exact pairwise_sortDesc pubKey (filter_recent.filterLoop now days papers)

/-! ### Relevance oracle adapter (C8)

`score_with_deepseek` (lines 252-295) is embedded from the point where the
textual oracle response is in hand (the network call is the function's
abstracted input): strip the response, peel an optional leading code
fence, slice from the first `{` to the last `}`, `json.loads` the slice,
read `data.get("score", 0)` through `int(...)` and clamp to `[0, 100]`;
any failure along the way is `None`.  The JSON grammar is modelled with
integer numerals only (every score payload this adapter meaningfully
handles is an integer; float literals are out of the modelled fragment)
and `\uXXXX` escapes are out of the modelled fragment of string
literals. -/

def lbrace : Char := Char.ofNat 123

def rbrace : Char := Char.ofNat 125

def dquote : Char := Char.ofNat 34

def bslash : Char := Char.ofNat 92

def backquote : Char := Char.ofNat 96

/-- Python `str.strip()` whitespace. -/
def pyWsB (c : Char) : Bool :=
  c == ' ' || c == '\t' || c == '\n' || c == '\r' || c == '\x0b' || c == '\x0c'

def lstripCs (cs : List Char) : List Char := cs.dropWhile pyWsB

def stripCs (cs : List Char) : List Char :=
  ((cs.dropWhile pyWsB).reverse.dropWhile pyWsB).reverse

/-- JSON inter-token whitespace. -/
def jsonWsB (c : Char) : Bool :=
  c == ' ' || c == '\t' || c == '\n' || c == '\r'

def skipWsJ (cs : List Char) : List Char := cs.dropWhile jsonWsB

/-- One JSON string-escape character. -/
def unescChar (e : Char) : Option Char :=
  if e = dquote then some dquote
  else if e = bslash then some bslash
  else if e = '/' then some '/'
  else if e = 'b' then some '\x08'
  else if e = 'f' then some '\x0c'
  else if e = 'n' then some '\n'
  else if e = 'r' then some '\r'
  else if e = 't' then some '\t'
  else none

/-- Body of a JSON string literal after the opening quote; returns the
decoded characters and the remainder after the closing quote. -/
def parseStrBody : Nat → List Char → Option (List Char × List Char)
  | 0, _ => none
  | _ + 1, [] => none
  | fuel + 1, c :: rest =>
    if c = dquote then some ([], rest)
    else if c = bslash then
      match rest with
      | [] => none
      | e :: rest2 =>
        match unescChar e with
        | none => none
        | some u =>
          match parseStrBody fuel rest2 with
          | some (s, r) => some (u :: s, r)
          | none => none
    else
      match parseStrBody fuel rest with
      | some (s, r) => some (c :: s, r)
      | none => none

/-- A JSON integer numeral without sign: `0`, or a nonzero leading digit
followed by digits. -/
def parseNumNat (cs : List Char) : Option (Nat × List Char) :=
  match cs with
  | [] => none
  | d :: tail =>
    if d = '0' then some (0, tail)
    else if d.isDigit then
      some (digitsToNat (cs.takeWhile Char.isDigit), cs.dropWhile Char.isDigit)
    else none

/-- A JSON integer numeral with optional leading minus. -/
def parseNum (cs : List Char) : Option (Int × List Char) :=
  match cs with
  | [] => none
  | c :: rest =>
    if c = '-' then
      match parseNumNat rest with
      | some (n, r) => some (-(n : Int), r)
      | none => none
    else
      match parseNumNat cs with
      | some (n, r) => some ((n : Int), r)
      | none => none

mutual

/-- Recursive-descent JSON value parser (`json.loads` on the modelled
grammar); returns the value and the unconsumed remainder. -/
def parseJ : Nat → List Char → Option (Json × List Char)
  | 0, _ => none
  | fuel + 1, cs =>
    match skipWsJ cs with
    | [] => none
    | c :: rest =>
      if c = lbrace then
        match skipWsJ rest with
        | d :: rest2 =>
          if d = rbrace then some (.obj [], rest2)
          else parseMembers fuel (d :: rest2) []
        | [] => none
      else if c = '[' then
        match skipWsJ rest with
        | d :: rest2 =>
          if d = ']' then some (.arr [], rest2)
          else parseElems fuel (d :: rest2) []
        | [] => none
      else if c = dquote then
        match parseStrBody (rest.length + 1) rest with
        | some (s, r) => some (.str (String.mk s), r)
        | none => none
      else if c = 't' then
        match rest with
        | 'r' :: 'u' :: 'e' :: r => some (.bool true, r)
        | _ => none
      else if c = 'f' then
        match rest with
        | 'a' :: 'l' :: 's' :: 'e' :: r => some (.bool false, r)
        | _ => none
      else if c = 'n' then
        match rest with
        | 'u' :: 'l' :: 'l' :: r => some (.null, r)
        | _ => none
      else
        match parseNum (c :: rest) with
        | some (n, r) => some (.num n, r)
        | none => none

/-- Members of a non-empty JSON object after its opening brace. -/
def parseMembers : Nat → List Char → List (String × Json) → Option (Json × List Char)
  | 0, _, _ => none
  | fuel + 1, cs, acc =>
    match skipWsJ cs with
    | c :: rest =>
      if c = dquote then
        match parseStrBody (rest.length + 1) rest with
        | some (k, r2) =>
          match skipWsJ r2 with
          | ':' :: r3 =>
            match parseJ fuel r3 with
            | some (v, r4) =>
              match skipWsJ r4 with
              | ',' :: r5 => parseMembers fuel r5 (acc ++ [(String.mk k, v)])
              | d :: r5 =>
                if d = rbrace then some (.obj (acc ++ [(String.mk k, v)]), r5)
                else none
              | [] => none
            | none => none
          | _ => none
        | none => none
      else none
    | [] => none

/-- Elements of a non-empty JSON array after its opening bracket. -/
def parseElems : Nat → List Char → List Json → Option (Json × List Char)
  | 0, _, _ => none
  | fuel + 1, cs, acc =>
    match parseJ fuel cs with
    | some (v, r) =>
      match skipWsJ r with
      | ',' :: r2 => parseElems fuel r2 (acc ++ [v])
      | d :: r2 => if d = ']' then some (.arr (acc ++ [v]), r2) else none
      | [] => none
    | none => none

end

/-- Python `json.loads` on a whole input: one value, then only whitespace may
remain. -/
def pyJsonLoads (cs : List Char) : Option Json :=
  match parseJ (2 * cs.length + 2) cs with
  | some (j, rest) => if skipWsJ rest = [] then some j else none
  | none => none

def fenceCs : List Char := [backquote, backquote, backquote]

/-- The segment of `cs` before the next code fence (Python
`content.split("``` ", 2)[1]` behaviour for a fence-initial string, with
the backtick fence). -/
def takeUntilFence : List Char → List Char
  | [] => []
  | c :: rest =>
    if fenceCs.isPrefixOf (c :: rest) then [] else c :: takeUntilFence rest

def toLowerA (c : Char) : Char :=
  if 'A' ≤ c ∧ c ≤ 'Z' then Char.ofNat (c.toNat + 32) else c

/-- Everything after the first newline, `[]` when there is none
(`content.split("\n", 1)[1] if "\n" in content else ""`). -/
def dropFirstLine (cs : List Char) : List Char :=
  match cs.dropWhile (fun c => ¬ (c = '\n')) with
  | [] => []
  | _ :: rest => rest

/-- Lines 273-279: when the stripped response starts with a code fence,
keep only the segment up to the next fence, left-strip it, and when it
then starts with `json` (case-insensitively) drop that first line. -/
def stripCodeFence (cs : List Char) : List Char :=
  if fenceCs.isPrefixOf cs then
    let inner := lstripCs (takeUntilFence (cs.drop 3))
    if (inner.take 4).map toLowerA = ['j', 's', 'o', 'n'] then dropFirstLine inner
    else inner
  else cs

def firstIdxOf (c : Char) : List Char → Option Nat
  | [] => none
  | d :: rest => if d = c then some 0 else (firstIdxOf c rest).map (· + 1)

def lastIdxOf (c : Char) (cs : List Char) : Option Nat :=
  match firstIdxOf c cs.reverse with
  | some i => some (cs.length - 1 - i)
  | none => none

/-- Lines 281-287: slice from the first `{` to the last `}` when both
exist in that order, else pass the content through unchanged. -/
def spanExtract (cs : List Char) : List Char :=
  match firstIdxOf lbrace cs, lastIdxOf rbrace cs with
  | some s, some e => if s < e then (cs.drop s).take (e - s + 1) else cs
  | _, _ => cs

def clampScore (n : Int) : Int := max 0 (min 100 n)

/-- Python dict lookup on the parsed object's pairs: on duplicate keys the
last binding wins, as in `json.loads`. -/
def lookupLast (kvs : List (String × Json)) (k : String) : Option Json :=
  kvs.foldl (fun acc kv => if kv.1 = k then some kv.2 else acc) none

/-- Lines 289-292 given a parsed payload: `int(data.get("score", 0))`
clamped to `[0, 100]`; a non-dict payload or unconvertible value raises
into the `except` (`none`). -/
def extract_clamped (j : Json) : Option Int :=
  match j with
  | .obj kvs =>
    match pyInt (match lookupLast kvs "score" with | some v => v | none => .num 0) with
    | some n => some (clampScore n)
    | none => none
  | _ => none

/-- The adapter `score_with_deepseek` from the textual oracle response onward
(lines 270-295): strip, peel an optional code fence, slice first-`{` to
last-`}`, parse, extract and clamp; every failure is `none`. -/
def score_with_deepseek (content : String) : Option Int :=
  match pyJsonLoads (spanExtract (stripCodeFence (stripCs content.data))) with
  | some j => extract_clamped j
  | none => none

/-- Modelled from the claim's words, for comparison with the code: scan
the response left to right, parse at the first position from which a
well-formed structured payload parses, use only that payload, and return
its score clamped to `[0, 100]`; `none` when no position yields a
well-formed payload or its score cannot be extracted. -/
def first_payload_score (content : String) : Option Int :=
  scanPayload content.data
where
  scanPayload : List Char → Option Int
    | [] => none
    | c :: rest =>
      if c = lbrace then
        match parseJ (2 * (c :: rest).length + 2) (c :: rest) with
        | some (j, _) => extract_clamped j
        | none => scanPayload rest
      else scanPayload rest

/-- C8 counterexample: for the response
`{"score": 90} and also {"score": 10}` the first well-formed embedded
payload is `{"score": 90}`, so the claim's adapter returns 90 — but the
code slices from the first `{` to the *last* `}`, hands
`json.loads` the whole span, and fails: it returns no score.  The claim's
description of the extraction is false as stated. -/
theorem c8_first_payload_counterexample :
    score_with_deepseek
        "\x7b\"score\": 90\x7d and also \x7b\"score\": 10\x7d" = none
    ∧ first_payload_score
        "\x7b\"score\": 90\x7d and also \x7b\"score\": 10\x7d" = some 90 := by
  refine ⟨by decide, by decide⟩

theorem extract_clamped_bounds (j : Json) (n : Int)
    (h : extract_clamped j = some n) : 0 ≤ n ∧ n ≤ 100 := by
  match j with
  | .null | .bool _ | .num _ | .str _ | .arr _ =>
    simp [extract_clamped] at h
  | .obj kvs =>
    simp only [extract_clamped] at h
    cases hp : pyInt (match lookupLast kvs "score" with | some v => v | none => .num 0) with
    | none => rw [hp] at h; exact absurd h (by simp)
    | some m =>
      rw [hp] at h
      have hn : n = clampScore m := by
        injection h with h'
        exact h'.symm
      subst hn
      unfold clampScore
      constructor
      · exact le_max_left 0 (min 100 m)
      · exact max_le (by norm_num) (min_le_left 100 m)

/-- C8 amended: the adapter slices from the first `{` to the last `}` of
the (fence-stripped) response and parses that whole slice — not the first
well-formed payload — and any score it does return has been clamped into
`[0, 100]`; every parse or extraction failure yields no score. -/
theorem c8_score_clamped (content : String) (n : Int)
    (h : score_with_deepseek content = some n) : 0 ≤ n ∧ n ≤ 100 := by
  unfold score_with_deepseek at h
  cases hp : pyJsonLoads (spanExtract (stripCodeFence (stripCs content.data))) with
  | none => rw [hp] at h; exact absurd h (by simp)
  | some j =>
    rw [hp] at h
    exact extract_clamped_bounds j n h

/-- C8 witness: an out-of-range payload score 150 comes back clamped to
100, within the bounds the amended theorem states. -/
theorem c8_score_clamped_witness :
    score_with_deepseek "\x7b\"score\": 150\x7d" = some 100
    ∧ (0 ≤ (100 : Int) ∧ (100 : Int) ≤ 100) :=
  ⟨by decide, c8_score_clamped "\x7b\"score\": 150\x7d" 100 (by decide)⟩

end PubmedDigest
